import Mathlib

/-!
Verification development for the client-side RAG chat application
(`services/ragService.ts`, `services/geminiService.ts`, `App.tsx`).

The TypeScript source is shallowly embedded: strings become `List Char`,
the chunking `while` loop becomes a fuel-indexed recursion returning
`Option` (`none` models a loop that has not finished within the given
fuel, so non-termination is `none` for every fuel), the asynchronous
embedding / generation capabilities become explicit oracles carried in an
environment record, and the `AsyncGenerator` answer stream becomes the
list of fragments it yields together with a trace of the external calls
it performs.  Floating-point similarity scores are idealised as `ℚ`; the
ranking theorems quantify over an arbitrary similarity function, which
subsumes the float cosine the code computes.
-/

/-- Document text is modelled as a list of characters (JS strings are
indexed sequences of code units; all texts involved are plain BMP text). -/
abbrev Str := List Char

/-- One extracted page, as produced by `extractTextFromPdf`:
`{ text, page }`. -/
structure PageText where
  text : Str
  page : Nat
deriving DecidableEq

/-- Interface `DocChunk` from `ragService.ts`: `{ id, text, embedding?, pageNumber }`. -/
structure DocChunk where
  id : Str
  text : Str
  pageNumber : Nat
  embedding : Option (List ℚ)
deriving DecidableEq

/-- Interface `ProcessedDocument` from `ragService.ts`: `{ chunks, fullText }`. -/
structure ProcessedDocument where
  chunks : List DocChunk
  fullText : Str
deriving DecidableEq

/-- JS `String.prototype.slice` index normalisation: a negative index
counts from the end (clamped at 0), a non-negative index is clamped at
the length. -/
def jsIdx (len : Nat) (i : Int) : Nat :=
  if i < 0 then (i + len).toNat else min i.toNat len

/-- JS `text.slice(a, b)`. -/
def jsSlice (t : Str) (a b : Int) : Str :=
  (t.take (jsIdx t.length b)).drop (jsIdx t.length a)

/-- The body of `chunkText`'s `while (start < text.length)` loop for a
single page, with explicit fuel.  Each iteration emits the window
`text.slice(start, min (start + chunkSize) len)` with id
`` `${page}-${start}` `` and then advances `start` by
`chunkSize - overlap` (an `Int`, since the source never checks the sign).
The source's trailing `if (start >= text.length) break;` is subsumed by
the loop guard and is therefore not represented separately.  `none`
means the fuel ran out before the loop finished. -/
def chunkGo (chunkSize overlap : Nat) (t : Str) (page : Nat) :
    Nat → Int → Option (List DocChunk)
  | 0, _ => none
  | fuel + 1, start =>
    if start < (t.length : Int) then
      let e : Int := min (start + (chunkSize : Int)) (t.length : Int)
      let c : DocChunk :=
        { id := (toString page).data ++ "-".data ++ (toString start).data
          text := jsSlice t start e
          pageNumber := page
          embedding := none }
      match chunkGo chunkSize overlap t page fuel (start + ((chunkSize : Int) - (overlap : Int))) with
      | some rest => some (c :: rest)
      | none => none
    else
      some []

/-- Function `chunkText(pages, chunkSize, overlap)` over all pages, concatenating
the per-page chunk lists in page order (the source's `forEach` + `push`).
Each page gets fuel `len + 1`, which is enough for every terminating
configuration (advance step ≥ 1); when the advance step is ≤ 0 the loop
of the source never finishes and this returns `none`. -/
def chunkText (chunkSize overlap : Nat) : List PageText → Option (List DocChunk)
  | [] => some []
  | p :: ps =>
    match chunkGo chunkSize overlap p.text p.page (p.text.length + 1) 0,
          chunkText chunkSize overlap ps with
    | some c, some r => some (c ++ r)
    | _, _ => none

/-- The same traversal with a caller-chosen fuel for every page; used to
state termination and non-termination of the source's loop. -/
def chunkTextFuel (chunkSize overlap fuel : Nat) : List PageText → Option (List DocChunk)
  | [] => some []
  | p :: ps =>
    match chunkGo chunkSize overlap p.text p.page fuel 0,
          chunkTextFuel chunkSize overlap fuel ps with
    | some c, some r => some (c ++ r)
    | _, _ => none

/-- The chunking loop finishes on `pages` within some finite fuel. -/
def chunkTerminates (chunkSize overlap : Nat) (pages : List PageText) : Prop :=
  ∃ fuel, (chunkTextFuel chunkSize overlap fuel pages).isSome = true

/-- Ceiling division `⌈a / b⌉` on naturals. -/
def ceilDiv (a b : Nat) : Nat := (a + b - 1) / b

/-- The embedding batch loop of `processPdf`: chunks are taken in batches
of `batchSize = 5`; inside a batch every chunk is embedded independently
(`Promise.all` with a per-chunk `try/catch`), a failed call (`none` from
the oracle) leaving that chunk's `embedding` unset.  The `onProgress`
callback is purely observational and is not modelled. -/
def embedAll (embed : DocChunk → Option (List ℚ)) : List DocChunk → List DocChunk
  | c1 :: c2 :: c3 :: c4 :: c5 :: rest =>
    ({ c1 with embedding := embed c1 } :: { c2 with embedding := embed c2 } ::
     { c3 with embedding := embed c3 } :: { c4 with embedding := embed c4 } ::
     { c5 with embedding := embed c5 } :: []) ++ embedAll embed rest
  | cs => cs.map fun x => { x with embedding := embed x }

/-- Function `processPdf` after text extraction (extraction is an external
collaborator; its output `pages` is the input here): compute `fullText`
as the page texts joined by a blank line, chunk with the default
`chunkSize = 4000, overlap = 500`, embed in batches, and keep only the
chunks whose embedding is set.  `none` only if the chunking loop does not
finish (impossible for the default configuration). -/
def processPdf (embed : DocChunk → Option (List ℚ)) (pages : List PageText) :
    Option ProcessedDocument :=
  match chunkText 4000 500 pages with
  | none => none
  | some chunks =>
    some { chunks := (embedAll embed chunks).filter fun c => c.embedding.isSome
           fullText := List.intercalate ("\n\n".data) (pages.map fun p => p.text) }

/-- Function `cosineSimilarity` from the source, read over the reals (the code
computes it in floating point; no claim depends on its numeric values,
the ranking theorems quantify over an arbitrary similarity function). -/
noncomputable def cosineSimilarity (vecA vecB : List ℝ) : ℝ :=
  (List.zipWith (· * ·) vecA vecB).sum /
    (Real.sqrt ((vecA.map fun x => x * x).sum) * Real.sqrt ((vecB.map fun x => x * x).sum))

/-- A chunk paired with its similarity score
(`{ ...chunk, score: cosineSimilarity(...) }`). -/
structure ScoredChunk where
  chunk : DocChunk
  score : ℚ
deriving DecidableEq

/-- Insertion step of a stable descending sort: `x` is placed before the
first element whose score is not greater than `x`'s.  This realises the
observable behaviour of JS `Array.prototype.sort((a, b) => b.score - a.score)`,
which is required to be a stable descending sort. -/
def insertDesc (x : ScoredChunk) : List ScoredChunk → List ScoredChunk
  | [] => [x]
  | y :: ys => if x.score < y.score then y :: insertDesc x ys else x :: y :: ys

/-- Stable sort by score, descending (`.sort((a, b) => b.score - a.score)`). -/
def sortDesc : List ScoredChunk → List ScoredChunk
  | [] => []
  | x :: xs => insertDesc x (sortDesc xs)

/-- Scoring step `chunks.map(chunk => ({ ...chunk, score: sim(questionEmbedding, chunk.embedding!) }))`;
`sim` abstracts the float cosine, and the non-null assertion `embedding!`
becomes `getD []`. -/
def scoreChunks (sim : List ℚ → List ℚ → ℚ) (qv : List ℚ) (chunks : List DocChunk) :
    List ScoredChunk :=
  chunks.map fun c => { chunk := c, score := sim qv (c.embedding.getD []) }

/-- Retrieval step `scoredChunks.sort((a, b) => b.score - a.score).slice(0, 8)`. -/
def rankTop (sim : List ℚ → List ℚ → ℚ) (qv : List ℚ) (chunks : List DocChunk) :
    List ScoredChunk :=
  (sortDesc (scoreChunks sim qv chunks)).take 8

/-- Case folding used to model the `i` flag of the strategy-selection
regex: both sides are lowercased. -/
def lowerChars (s : Str) : Str := s.map Char.toLower

/-- Predicate `startsWithSeq n h` is true when `h` begins with `n`. -/
def startsWithSeq : Str → Str → Bool
  | [], _ => true
  | _ :: _, [] => false
  | a :: as, b :: bs => a == b && startsWithSeq as bs

/-- Predicate `containsSeq n h` is true when `n` occurs as a contiguous substring
of `h`. -/
def containsSeq (needle : Str) : Str → Bool
  | [] => needle.isEmpty
  | h :: t => startsWithSeq needle (h :: t) || containsSeq needle t

/-- The alternatives of the regex
`/summar|overview|tl;dr|digest|describe the document/i`. -/
def summaryKeywords : List Str :=
  ["summar".data, "overview".data, "tl;dr".data, "digest".data, "describe the document".data]

/-- Function `isSummaryRequest`: the regex test on the question.  Each alternative
is a literal, so the test is exactly case-insensitive substring
containment of one of the keywords. -/
def isSummaryRequest (q : Str) : Bool :=
  summaryKeywords.any fun k => containsSeq (lowerChars k) (lowerChars q)

/-- Fixed part of the summary prompt before the document content. -/
def sumPre : Str :=
  ("\n      You are an expert document assistant.\n      The user wants a summary or overview of the following document.\n      Provide a comprehensive, detailed, and well-structured summary.\n      Explain the key points in depth.\n      \n      Document Content:\n      ").data

/-- Fixed part of the summary prompt between the document content and the
user request. -/
def sumMid : Str := ("\n      \n      User Request: ").data

/-- Fixed tail of the summary prompt. -/
def sumPost : Str := ("\n    ").data

/-- Value `textToSend`: `fullText` truncated to `MAX_CHARS = 3000000` with the
`"...[truncated]"` marker appended when it exceeds the budget, the whole
text otherwise. -/
def sumTextToSend (t : Str) : Str :=
  if 3000000 < t.length then t.take 3000000 ++ ("...[truncated]".data) else t

/-- The summary prompt built by the context-stuffing strategy. -/
def summaryPromptOf (doc : ProcessedDocument) (q : Str) : Str :=
  sumPre ++ sumTextToSend doc.fullText ++ sumMid ++ q ++ sumPost

/-- The fixed source-attribution fragment yielded after the summary
stream ends. -/
def summarySourceMarker : Str := ("\n\n**Source:** Full Document Analysis").data

/-- Fixed part of the RAG prompt before the context. -/
def ragPre : Str :=
  ("\n    You are a helpful assistant answering questions about a document.\n    Use the following context snippets from the document to answer the question.\n    \n    Instructions:\n    1. Provide a  well-explained** answer. Do not be too brief.\n    2. Explain the concepts thoroughly based on the text.\n    3. If the answer is not in the context, say \"I cannot find the answer in the document.\"\n    \n    Context:\n    ").data

/-- Fixed part of the RAG prompt between context and question. -/
def ragMid : Str := ("\n    \n    Question:\n    ").data

/-- Fixed tail of the RAG prompt. -/
def ragPost : Str := ("\n    \n    Answer:\n  ").data

/-- Context construction `topChunks.map(c => c.text).join('\n\n---\n\n')`. -/
def contextOf (top : List ScoredChunk) : Str :=
  List.intercalate ("\n\n---\n\n".data) (top.map fun s => s.chunk.text)

/-- The RAG prompt built from the top-ranked chunks. -/
def ragPromptOf (sim : List ℚ → List ℚ → ℚ) (qv : List ℚ) (chunks : List DocChunk)
    (q : Str) : Str :=
  ragPre ++ contextOf (rankTop sim qv chunks) ++ ragMid ++ q ++ ragPost

/-- Ascending insertion step (stable) for the numeric page sort
`.sort((a, b) => a - b)`. -/
def insertAsc (x : Nat) : List Nat → List Nat
  | [] => [x]
  | y :: ys => if y < x then y :: insertAsc x ys else x :: y :: ys

/-- Ascending sort of page numbers. -/
def sortAsc : List Nat → List Nat
  | [] => []
  | x :: xs => insertAsc x (sortAsc xs)

/-- First-occurrence deduplication (`Array.from(new Set(...))` preserves
first-insertion order); `seen` accumulates the values already kept. -/
def dedupFirstAux (seen : List Nat) : List Nat → List Nat
  | [] => []
  | x :: xs => if x ∈ seen then dedupFirstAux seen xs else x :: dedupFirstAux (x :: seen) xs

/-- Deduplication `Array.from(new Set(l))`. -/
def dedupFirst (l : List Nat) : List Nat := dedupFirstAux [] l

/-- Cited pages `Array.from(new Set(topChunks.map(c => c.pageNumber))).sort((a, b) => a - b)`. -/
def uniquePagesOf (top : List ScoredChunk) : List Nat :=
  sortAsc (dedupFirst (top.map fun s => s.chunk.pageNumber))

/-- The citation fragment:
`` `\n\n**Sources:** Page${pages.length > 1 ? 's' : ''} ${pages.join(', ')}` ``. -/
def citation (pages : List Nat) : Str :=
  ("\n\n**Sources:** Page".data) ++ (if 1 < pages.length then "s".data else []) ++
    (" ".data) ++ List.intercalate (", ".data) (pages.map fun n => (toString n).data)

/-- One run of the generation capability for one prompt: the text values
of the chunks it yields before either finishing normally
(`errored = false`) or throwing (`errored = true`).  An error occurring
mid-stream is represented by `frags` holding exactly the fragments
yielded before the throw. -/
structure RawStream where
  frags : List Str
  errored : Bool
deriving DecidableEq

/-- The in-band error fragment of `getCompletionStream`'s `catch`. -/
def streamErrMsg : Str :=
  ("Error generating response. Check browser console for details.").data

/-- Function `getCompletionStream`: forward each truthy `chunk.text` (the `if
(chunk.text)` guard drops empty texts); if the underlying stream throws,
the `catch` yields the fixed error fragment instead of propagating, so
this function is total. -/
def getCompletionStream (raw : RawStream) : List Str :=
  (raw.frags.filter fun s => !s.isEmpty) ++ (if raw.errored then [streamErrMsg] else [])

/-- External calls performed by `generateAnswer`, recorded for the
claims about which capabilities each strategy invokes.  `rankCall`
marks the similarity-ranking step (the `cosineSimilarity` map + sort). -/
inductive GenEffect where
  | embedCall : Str → GenEffect
  | rankCall : GenEffect
  | streamCall : Str → GenEffect
deriving DecidableEq

/-- Result of running the `generateAnswer` generator to completion:
the fragments it yielded, the external calls it made, and whether an
exception escaped it (only the question-embedding call can throw). -/
structure GenOutcome where
  fragments : List Str
  effects : List GenEffect
  failed : Bool
deriving DecidableEq

/-- The external capabilities `generateAnswer` consumes: the similarity
function, the question-embedding call (`none` = the call throws), and
the generation stream per prompt. -/
structure GenEnv where
  sim : List ℚ → List ℚ → ℚ
  embedQ : Str → Option (List ℚ)
  rawStream : Str → RawStream

/-- Function `generateAnswer(question, docData)`.  Summary path: stream over the
context-stuffing prompt, then one source marker fragment.  RAG path:
embed the question (a failure there escapes the generator), rank, stream
over the RAG prompt, then the citation fragment when at least one page
is cited. -/
def generateAnswer (env : GenEnv) (q : Str) (doc : ProcessedDocument) : GenOutcome :=
  if isSummaryRequest q = true then
    { fragments := getCompletionStream (env.rawStream (summaryPromptOf doc q)) ++
        [summarySourceMarker]
      effects := [GenEffect.streamCall (summaryPromptOf doc q)]
      failed := false }
  else
    match env.embedQ q with
    | none => { fragments := [], effects := [GenEffect.embedCall q], failed := true }
    | some qv =>
      { fragments := getCompletionStream (env.rawStream (ragPromptOf env.sim qv doc.chunks q)) ++
          (if 0 < (uniquePagesOf (rankTop env.sim qv doc.chunks)).length
           then [citation (uniquePagesOf (rankTop env.sim qv doc.chunks))] else [])
        effects := [GenEffect.embedCall q, GenEffect.rankCall,
          GenEffect.streamCall (ragPromptOf env.sim qv doc.chunks q)]
        failed := false }

/-- Message roles of the chat transcript in `App.tsx`. -/
inductive Role where
  | user
  | assistant
deriving DecidableEq

/-- One transcript message. -/
structure Message where
  role : Role
  content : Str
deriving DecidableEq

/-- The `catch` message of `handleSendMessage`. -/
def connErrMsg : Str :=
  ("Error connecting to Gemini. Please check your network or API key.").data

/-- Handler `handleSendMessage` reduced to its transcript effect: append the user
message; then either the accumulated stream (`fullResponse += chunk` over
every yielded fragment) as one assistant message, or, when the generator
throws (question-embedding failure), the fixed connection-error message.
The intermediate placeholder updates collapse to the final state. -/
def handleSendMessage (env : GenEnv) (doc : ProcessedDocument) (msgs : List Message)
    (q : Str) : List Message :=
  let out := generateAnswer env q doc
  if out.failed then
    (msgs ++ [⟨Role.user, q⟩]) ++ [⟨Role.assistant, connErrMsg⟩]
  else
    (msgs ++ [⟨Role.user, q⟩]) ++ [⟨Role.assistant, out.fragments.flatten⟩]

/-! Concrete fixtures used by witness theorems. -/

/-- Seven one-character pages (pages 1..7); each yields exactly one chunk
under the default chunk configuration. -/
def pagesW4 : List PageText := (List.range 7).map fun i => ⟨"a".data, i + 1⟩

/-- An embedding oracle that fails exactly on the chunks of pages 1 and 2. -/
def embedW4 : DocChunk → Option (List ℚ) :=
  fun c => if c.pageNumber ≤ 2 then none else some [1]

/-- The chunks the default configuration produces for `pagesW4`. -/
def chunksW4 : List DocChunk := (chunkText 4000 500 pagesW4).getD []

/-- Two-page fixture for the full-text frame claim. -/
def pagesW10 : List PageText := [⟨"ab".data, 1⟩, ⟨"cd".data, 2⟩]

/-- An embedding oracle that fails on every chunk. -/
def embedW10 : DocChunk → Option (List ℚ) := fun _ => none

/-- The processed document for `pagesW10` when every embedding fails. -/
def docW10 : ProcessedDocument := (processPdf embedW10 pagesW10).getD ⟨[], []⟩

/-- A trivial generation environment for the summary-path witness. -/
def envW7 : GenEnv :=
  { sim := fun _ _ => 0, embedQ := fun _ => none, rawStream := fun _ => ⟨[], false⟩ }

/-- A tiny processed document for the summary-path witness. -/
def docW7 : ProcessedDocument := { chunks := [], fullText := "d".data }

/-- A chunk of the retrieval-citation scenario: page `pg`, similarity
score `s` planted through a one-entry embedding. -/
def chunkW8 (i pg : Nat) (s : ℚ) : DocChunk :=
  { id := (toString pg).data ++ "-".data ++ (toString i).data
    text := "t".data, pageNumber := pg, embedding := some [s] }

/-- Environment whose similarity function reads the planted score. -/
def envW8 : GenEnv :=
  { sim := fun _ cv => cv.headD 0, embedQ := fun _ => some [1],
    rawStream := fun _ => ⟨["ans".data], false⟩ }

/-- Ten embedded chunks spanning pages `[1,1,2,3,3,4,4,5,5,6]`; the two
chunks with score 0 (pages 1 and 2) fall out of the top 8. -/
def docW8 : ProcessedDocument :=
  { chunks := [chunkW8 0 1 1, chunkW8 1 1 0, chunkW8 2 2 0, chunkW8 3 3 1, chunkW8 4 3 1,
      chunkW8 5 4 1, chunkW8 6 4 1, chunkW8 7 5 1, chunkW8 8 5 1, chunkW8 9 6 1]
    fullText := "t".data }

/-- Environment whose generation stream throws after yielding one
fragment (end-to-end scenario 4). -/
def envW9 : GenEnv :=
  { sim := fun _ _ => 0, embedQ := fun _ => some [1],
    rawStream := fun _ => ⟨["Partial answer ".data], true⟩ }

/-- Document for the mid-stream failure witness. -/
def docW9 : ProcessedDocument := { chunks := [], fullText := "doc".data }

/-- Environment for the retrieval-path half of the mid-stream failure
witness: the question embedding succeeds, the generation stream throws
after yielding one fragment. -/
def envW9r : GenEnv :=
  { sim := fun _ cv => cv.headD 0, embedQ := fun _ => some [1],
    rawStream := fun _ => ⟨["Partial answer ".data], true⟩ }

/-- Document with one embedded chunk (page 2) for the retrieval-path
half of the mid-stream failure witness. -/
def docW9r : ProcessedDocument :=
  { chunks := [{ id := "2-0".data, text := "t".data, pageNumber := 2, embedding := some [1] }]
    fullText := "t".data }

/-! Helper lemmas about the chunking loop. -/

/-- Peeling one step off the ceiling division. -/
theorem ceilDiv_step (a s : Nat) (ha : 1 ≤ a) (hs : 1 ≤ s) :
    ceilDiv a s = 1 + ceilDiv (a - s) s := by
  unfold ceilDiv
  rcases le_or_lt a s with hle | hlt
  · have h1 : a - s = 0 := by omega
    rw [h1]
    have h2 : (a + s - 1) / s = 1 := by
      apply Nat.div_eq_of_lt_le <;> omega
    have h3 : (0 + s - 1) / s = 0 := Nat.div_eq_of_lt (by omega)
    omega
  · have h4 : a + s - 1 = (a - s + s - 1) + s := by omega
    rw [h4, Nat.add_div_right _ (by omega)]
    omega

/-- With a positive advance step and enough fuel, the page loop finishes
and emits exactly `⌈(len - start) / (chunkSize - overlap)⌉` windows. -/
theorem chunkGo_len (cs ov : Nat) (t : Str) (p : Nat) (h : ov < cs) :
    ∀ (fuel : Nat) (start : Int), 0 ≤ start → (t.length : Int) - start < (fuel : Int) →
      0 < fuel →
      (chunkGo cs ov t p fuel start).map List.length =
        some (ceilDiv ((t.length : Int) - start).toNat (cs - ov)) := by
  intro fuel
  induction fuel with
  | zero => intro start _ _ h0; omega
  | succ n ih =>
    intro start h0 hlt _
    by_cases hs : start < (t.length : Int)
    · have h0' : 0 ≤ start + ((cs : Int) - (ov : Int)) := by omega
      have hlt' : (t.length : Int) - (start + ((cs : Int) - (ov : Int))) < (n : Int) := by
        push_cast at hlt ⊢; omega
      have hn : 0 < n := by push_cast at hlt; omega
      have hr := ih (start + ((cs : Int) - (ov : Int))) h0' hlt' hn
      cases hg : chunkGo cs ov t p n (start + ((cs : Int) - (ov : Int))) with
      | none => rw [hg] at hr; simp at hr
      | some rest =>
        rw [hg] at hr
        simp only [Option.map_some', Option.some.injEq] at hr
        simp only [chunkGo, if_pos hs, hg, Option.map_some', Option.some.injEq,
          List.length_cons]
        have harg : ((t.length : Int) - (start + ((cs : Int) - (ov : Int)))).toNat =
            ((t.length : Int) - start).toNat - (cs - ov) := by omega
        rw [harg] at hr
        rw [ceilDiv_step _ _ (by omega) (by omega)]
        omega
    · simp only [chunkGo, if_neg hs, Option.map_some', Option.some.injEq, List.length_nil]
      have hz : ((t.length : Int) - start).toNat = 0 := by omega
      rw [hz]
      have hdiv : (cs - ov - 1) / (cs - ov) = 0 := Nat.div_eq_of_lt (by omega)
      simp [ceilDiv, hdiv]

/-- Every window the loop emits is non-empty. -/
theorem chunkGo_text_ne_nil (cs ov : Nat) (t : Str) (p : Nat) (h : ov < cs) :
    ∀ (fuel : Nat) (start : Int) (l : List DocChunk), 0 ≤ start →
      chunkGo cs ov t p fuel start = some l → ∀ c ∈ l, c.text ≠ [] := by
  intro fuel
  induction fuel with
  | zero => intro start l _ hl; simp [chunkGo] at hl
  | succ n ih =>
    intro start l h0 hl c hc
    by_cases hs : start < (t.length : Int)
    · rw [chunkGo] at hl
      rw [if_pos hs] at hl
      cases hg : chunkGo cs ov t p n (start + ((cs : Int) - (ov : Int))) with
      | none => rw [hg] at hl; simp at hl
      | some rest =>
        rw [hg] at hl
        simp only [Option.some.injEq] at hl
        subst hl
        rcases List.mem_cons.mp hc with rfl | hmem
        · apply List.ne_nil_of_length_pos
          simp only [jsSlice, jsIdx,
            show ¬ (start < (0 : Int)) by omega,
            show ¬ (min (start + (cs : Int)) (t.length : Int) < 0) by omega,
            if_false, List.length_drop, List.length_take]
          omega
        · exact ih _ rest (by omega) hg c hmem
    · rw [chunkGo] at hl
      rw [if_neg hs] at hl
      simp only [Option.some.injEq] at hl
      subst hl
      simp at hc

/-- With a non-positive advance step the loop guard stays true forever:
no amount of fuel finishes the loop from inside the page text. -/
theorem chunkGo_stuck (cs ov : Nat) (t : Str) (p : Nat) (h : cs ≤ ov) :
    ∀ (fuel : Nat) (start : Int), start < (t.length : Int) →
      chunkGo cs ov t p fuel start = none := by
  intro fuel
  induction fuel with
  | zero => intro start _; simp [chunkGo]
  | succ n ih =>
    intro start hs
    have hs' : start + ((cs : Int) - (ov : Int)) < (t.length : Int) := by omega
    simp only [chunkGo, if_pos hs, ih _ hs']

/-- Lemma: `chunkText` on a single page is the page loop with its standard fuel. -/
theorem chunkText_singleton (cs ov : Nat) (t : Str) (p : Nat) :
    chunkText cs ov [⟨t, p⟩] = chunkGo cs ov t p (t.length + 1) 0 := by
  cases hg : chunkGo cs ov t p (t.length + 1) 0 <;> simp [chunkText, hg]

/-- Any valid configuration finishes every page within the standard fuel. -/
theorem chunkText_isSome (cs ov : Nat) (h : ov < cs) :
    ∀ pages, (chunkText cs ov pages).isSome = true := by
  intro pages
  induction pages with
  | nil => rfl
  | cons p ps ih =>
    have h1 := chunkGo_len cs ov p.text p.page h (p.text.length + 1) 0 (by omega)
      (by push_cast; omega) (by omega)
    cases hg : chunkGo cs ov p.text p.page (p.text.length + 1) 0 with
    | none => rw [hg] at h1; simp at h1
    | some c =>
      cases hr : chunkText cs ov ps with
      | none => rw [hr] at ih; simp at ih
      | some r => simp [chunkText, hg, hr]

/-- A single fuel bound larger than every page length finishes all pages. -/
theorem chunkTextFuel_isSome (cs ov : Nat) (h : ov < cs) (fuel : Nat) :
    ∀ pages, (∀ p ∈ pages, p.text.length < fuel) →
      (chunkTextFuel cs ov fuel pages).isSome = true := by
  intro pages
  induction pages with
  | nil => intro _; rfl
  | cons p ps ih =>
    intro hb
    have h1 := chunkGo_len cs ov p.text p.page h fuel 0 (by omega)
      (by have := hb p (by simp); omega)
      (by have := hb p (by simp); omega)
    cases hg : chunkGo cs ov p.text p.page fuel 0 with
    | none => rw [hg] at h1; simp at h1
    | some c =>
      have ih' := ih fun x hx => hb x (List.mem_cons_of_mem _ hx)
      cases hr : chunkTextFuel cs ov fuel ps with
      | none => rw [hr] at ih'; simp at ih'
      | some r => simp [chunkTextFuel, hg, hr]

/-- C1 (amended): for every page and every configuration with
`overlap < chunkSize`, the chunker emits `⌈len(text) / (chunkSize - overlap)⌉`
windows, each non-empty; the page loop stops only once the advanced start
offset (`start + chunkSize - overlap`) reaches the page text length, so a
chunk whose end offset equals `len(text)` may be followed by one further
chunk, and a page whose text length is exactly `chunkSize` yields two
chunks under the default configuration, not one. -/
theorem c1_chunk_stop_condition (cs ov : Nat) (t : Str) (p : Nat) (h : ov < cs) :
    (chunkText cs ov [⟨t, p⟩]).map List.length = some (ceilDiv t.length (cs - ov))
    ∧ ∀ l, chunkText cs ov [⟨t, p⟩] = some l → ∀ c ∈ l, c.text ≠ [] := by
  rw [chunkText_singleton]
  constructor
  · have h1 := chunkGo_len cs ov t p h (t.length + 1) 0 (by omega) (by push_cast; omega)
      (by omega)
    rw [h1]
    norm_num
  · intro l hl
    exact chunkGo_text_ne_nil cs ov t p h (t.length + 1) 0 l (by omega) hl

/-- Counterexample to C1 as stated: a page whose text length is exactly
`chunkSize = 4000` yields two chunks under the default configuration
(the second starting at offset 3500), not one. -/
theorem c1_counterexample :
    (chunkText 4000 500 [⟨List.replicate 4000 'a', 1⟩]).map List.length = some 2
    ∧ (chunkText 4000 500 [⟨List.replicate 4000 'a', 1⟩]).map List.length ≠ some 1 := by
  have h1 : (chunkText 4000 500 [⟨List.replicate 4000 'a', 1⟩]).map List.length =
      some (ceilDiv ((((List.replicate 4000 'a').length : Int) - 0).toNat) (4000 - 500)) := by
    rw [chunkText_singleton]
    exact chunkGo_len 4000 500 (List.replicate 4000 'a') 1 (by omega)
      ((List.replicate 4000 'a').length + 1) 0 (by omega) (by omega) (by omega)
  simp only [List.length_replicate] at h1
  have h3 : ((((4000 : Nat) : Int)) - 0).toNat = (4000 : Nat) := by omega
  rw [h3] at h1
  have h2 : ceilDiv 4000 (4000 - 500) = 2 := by norm_num [ceilDiv]
  rw [h2] at h1
  exact ⟨h1, by rw [h1]; simp⟩

/-- Witness: the amended C1 applied at a concrete page. -/
theorem c1_witness :
    (chunkText 2 1 [⟨"ab".data, 1⟩]).map List.length = some 2 := by
  have h := (c1_chunk_stop_condition 2 1 ("ab".data) 1 (by omega)).1
  rw [h]
  decide

/-- The first loop iteration on a page no longer than one advance step
emits the whole page and the advanced start leaves the loop. -/
theorem chunkGo_small_aux (cs ov : Nat) (t : Str) (p : Nat) (h : ov < cs) (h0 : 0 < t.length)
    (hle : t.length ≤ cs - ov) (fuel : Nat) :
    chunkGo cs ov t p (fuel + 2) 0 =
      some [{ id := (toString p).data ++ "-".data ++ (toString (0 : Int)).data,
              text := t, pageNumber := p, embedding := none }] := by
  have hin : (0 : Int) < (t.length : Int) := by omega
  have hstop : ¬ ((0 : Int) + ((cs : Int) - (ov : Int)) < ((t.length : Int))) := by omega
  have hslice : jsSlice t 0 (min ((0 : Int) + (cs : Int)) ((t.length : Int))) = t := by
    have hmin : min ((0 : Int) + (cs : Int)) ((t.length : Int)) = (t.length : Int) := by omega
    rw [hmin]
    simp [jsSlice, jsIdx, show ¬ ((t.length : Int) < 0) by omega,
      show ¬ ((0 : Int) < (0 : Int)) by omega]
  simp only [show fuel + 2 = (fuel + 1) + 1 from rfl, chunkGo, hin, hstop, if_true, if_false,
    hslice]

/-- Specialisation of `chunkGo_small_aux` to the standard fuel. -/
theorem chunkGo_small (cs ov : Nat) (t : Str) (p : Nat) (h : ov < cs) (h0 : 0 < t.length)
    (hle : t.length ≤ cs - ov) :
    chunkGo cs ov t p (t.length + 1) 0 =
      some [{ id := (toString p).data ++ "-".data ++ (toString (0 : Int)).data,
              text := t, pageNumber := p, embedding := none }] := by
  have h2 : t.length + 1 = (t.length - 1) + 2 := by omega
  rw [h2]
  exact chunkGo_small_aux cs ov t p h h0 hle (t.length - 1)

/-- C2 (amended): a page whose text length is positive and at most
`chunkSize - overlap` (3500 under the defaults) yields exactly one chunk
whose text is the whole page text.  (Pages with
`chunkSize - overlap < len < chunkSize` yield two chunks, and an empty
page yields none, so the bound `chunkSize - overlap` - not `chunkSize` -
is the sharp threshold for a single whole-page chunk.) -/
theorem c2_short_page_single_chunk (cs ov : Nat) (t : Str) (p : Nat) (h : ov < cs)
    (h0 : 0 < t.length) (hle : t.length ≤ cs - ov) :
    chunkText cs ov [⟨t, p⟩] =
      some [{ id := (toString p).data ++ "-".data ++ (toString (0 : Int)).data,
              text := t, pageNumber := p, embedding := none }] := by
  rw [chunkText_singleton]
  exact chunkGo_small cs ov t p h h0 hle

/-- Counterexample to C2 as stated: a page of 3501 characters is strictly
shorter than `chunkSize = 4000`, yet the default configuration yields two
chunks for it, not one. -/
theorem c2_counterexample :
    (chunkText 4000 500 [⟨List.replicate 3501 'a', 1⟩]).map List.length = some 2
    ∧ (chunkText 4000 500 [⟨List.replicate 3501 'a', 1⟩]).map List.length ≠ some 1 := by
  have h1 : (chunkText 4000 500 [⟨List.replicate 3501 'a', 1⟩]).map List.length =
      some (ceilDiv ((((List.replicate 3501 'a').length : Int) - 0).toNat) (4000 - 500)) := by
    rw [chunkText_singleton]
    exact chunkGo_len 4000 500 (List.replicate 3501 'a') 1 (by omega)
      ((List.replicate 3501 'a').length + 1) 0 (by omega) (by omega) (by omega)
  simp only [List.length_replicate] at h1
  have h3 : ((((3501 : Nat) : Int)) - 0).toNat = (3501 : Nat) := by omega
  rw [h3] at h1
  have h2 : ceilDiv 3501 (4000 - 500) = 2 := by norm_num [ceilDiv]
  rw [h2] at h1
  exact ⟨h1, by rw [h1]; simp⟩

/-- Witness: the amended C2 applied at a concrete two-character page. -/
theorem c2_witness :
    chunkText 4000 500 [⟨"hi".data, 1⟩] =
      some [{ id := "1-0".data, text := "hi".data, pageNumber := 1, embedding := none }] := by
  have h := c2_short_page_single_chunk 4000 500 ("hi".data) 1 (by omega) (by decide) (by decide)
  rw [h]
  decide

/-- C3 (amended): with `overlap < chunkSize` the window loop reaches the
end of every page within the standard fuel (it terminates in finitely
many steps); a configuration with `chunkSize - overlap ≤ 0` is NOT
rejected - the source performs no configuration check - and on a
non-empty page the loop then never finishes for any amount of fuel
(it would spin forever). -/
theorem c3_chunker_termination :
    (∀ cs ov pages, ov < cs →
      (chunkText cs ov pages).isSome = true ∧ chunkTerminates cs ov pages)
    ∧ ∀ cs ov (t : Str) (p : Nat), cs ≤ ov → t ≠ [] →
        (∀ fuel, chunkGo cs ov t p fuel 0 = none) ∧ ¬ chunkTerminates cs ov [⟨t, p⟩] := by
  constructor
  · intro cs ov pages hov
    refine ⟨chunkText_isSome cs ov hov pages, ?_⟩
    refine ⟨(pages.map fun p => p.text.length).sum + 1, ?_⟩
    apply chunkTextFuel_isSome cs ov hov
    intro p hp
    have hmem : p.text.length ∈ pages.map fun p => p.text.length :=
      List.mem_map_of_mem _ hp
    have := List.single_le_sum (fun x _ => Nat.zero_le x) _ hmem
    omega
  · intro cs ov t p hov hne
    have hlen : (0 : Int) < (t.length : Int) := by
      have := List.length_pos.mpr hne
      omega
    refine ⟨fun fuel => chunkGo_stuck cs ov t p hov fuel 0 hlen, ?_⟩
    rintro ⟨fuel, hf⟩
    rw [chunkTextFuel, chunkGo_stuck cs ov t p hov fuel 0 hlen] at hf
    simp at hf

/-- Counterexample to C3 as stated: the configuration
`chunkSize = overlap = 500` is not rejected as a configuration error; on
the non-empty page `"a"` the loop simply never finishes (no fuel makes it
complete), i.e. the source would spin forever instead of failing fast. -/
theorem c3_counterexample : ¬ chunkTerminates 500 500 [⟨"a".data, 1⟩] := by
  rintro ⟨fuel, hf⟩
  rw [chunkTextFuel, chunkGo_stuck 500 500 ("a".data) 1 (by omega) fuel 0 (by decide)] at hf
  simp at hf

/-- Witness: both halves of the amended C3 at concrete configurations. -/
theorem c3_witness :
    (chunkText 4000 500 [⟨"a".data, 1⟩]).isSome = true
    ∧ chunkGo 500 500 ("a".data) 1 7 0 = none :=
  ⟨(c3_chunker_termination.1 4000 500 [⟨"a".data, 1⟩] (by omega)).1,
   (c3_chunker_termination.2 500 500 ("a".data) 1 (by omega) (by decide)).1 7⟩

/-! Helper lemmas about the stable descending sort of scored chunks. -/

/-- Inserting is a permutation with consing. -/
theorem insertDesc_perm (x : ScoredChunk) (l : List ScoredChunk) :
    (insertDesc x l).Perm (x :: l) := by
  induction l with
  | nil => exact List.Perm.refl _
  | cons y ys ih =>
    by_cases hxy : x.score < y.score
    · rw [insertDesc, if_pos hxy]
      exact (ih.cons y).trans (List.Perm.swap x y ys)
    · rw [insertDesc, if_neg hxy]

/-- Sorting is a permutation. -/
theorem sortDesc_perm (l : List ScoredChunk) : (sortDesc l).Perm l := by
  induction l with
  | nil => exact List.Perm.refl _
  | cons x xs ih => exact (insertDesc_perm x (sortDesc xs)).trans (ih.cons x)

/-- Inserting preserves the non-increasing score order. -/
theorem insertDesc_sorted (x : ScoredChunk) (l : List ScoredChunk)
    (hl : l.Pairwise fun a b => b.score ≤ a.score) :
    (insertDesc x l).Pairwise fun a b => b.score ≤ a.score := by
  induction l with
  | nil => simp [insertDesc]
  | cons y ys ih =>
    rcases List.pairwise_cons.mp hl with ⟨hy, hys⟩
    by_cases hxy : x.score < y.score
    · rw [insertDesc, if_pos hxy]
      refine List.pairwise_cons.mpr ⟨?_, ih hys⟩
      intro z hz
      rcases List.mem_cons.mp ((insertDesc_perm x ys).mem_iff.mp hz) with rfl | hz'
      · exact le_of_lt hxy
      · exact hy z hz'
    · rw [insertDesc, if_neg hxy]
      refine List.pairwise_cons.mpr ⟨?_, hl⟩
      intro z hz
      rcases List.mem_cons.mp hz with rfl | hz'
      · exact le_of_not_lt hxy
      · exact (hy z hz').trans (le_of_not_lt hxy)

/-- The sorted list is non-increasing in score. -/
theorem sortDesc_sorted (l : List ScoredChunk) :
    (sortDesc l).Pairwise fun a b => b.score ≤ a.score := by
  induction l with
  | nil => simp [sortDesc]
  | cons x xs ih => exact insertDesc_sorted x _ ih

/-- Inserting an element of score `s` appends it after the earlier
elements of score `s` (the skipped elements all have strictly greater
score), which is exactly stability of the insertion. -/
theorem filter_insertDesc_eq (x : ScoredChunk) (l : List ScoredChunk) (s : ℚ)
    (hx : x.score = s) :
    (insertDesc x l).filter (fun c => decide (c.score = s)) =
      x :: l.filter (fun c => decide (c.score = s)) := by
  induction l with
  | nil => simp [insertDesc, hx]
  | cons y ys ih =>
    by_cases hxy : x.score < y.score
    · have hy : ¬ (y.score = s) := by
        intro hys
        rw [hys, ← hx] at hxy
        exact lt_irrefl _ hxy
      rw [insertDesc, if_pos hxy]
      simp [List.filter_cons, hy, ih]
    · rw [insertDesc, if_neg hxy]
      simp [List.filter_cons, hx]

/-- Inserting an element of a different score leaves the score-`s`
subsequence unchanged. -/
theorem filter_insertDesc_ne (x : ScoredChunk) (l : List ScoredChunk) (s : ℚ)
    (hx : ¬ x.score = s) :
    (insertDesc x l).filter (fun c => decide (c.score = s)) =
      l.filter (fun c => decide (c.score = s)) := by
  induction l with
  | nil => simp [insertDesc, hx]
  | cons y ys ih =>
    by_cases hxy : x.score < y.score
    · rw [insertDesc, if_pos hxy]
      simp [List.filter_cons, ih]
    · rw [insertDesc, if_neg hxy]
      simp [List.filter_cons, hx]

/-- Stability of the sort: for every score value, the subsequence of
elements carrying that score is unchanged by sorting. -/
theorem sortDesc_filter (l : List ScoredChunk) (s : ℚ) :
    (sortDesc l).filter (fun c => decide (c.score = s)) =
      l.filter (fun c => decide (c.score = s)) := by
  induction l with
  | nil => rfl
  | cons x xs ih =>
    by_cases hx : x.score = s
    · rw [sortDesc, filter_insertDesc_eq x _ s hx, ih]
      simp [List.filter_cons, hx]
    · rw [sortDesc, filter_insertDesc_ne x _ s hx, ih]
      simp [List.filter_cons, hx]

/-- C5: for every query vector and every chunk sequence, the ranking step
returns exactly `min 8 n` scored chunks, in non-increasing score order,
and for every score value the retained chunks of that score are an
initial segment of the equally-scored chunks in insertion order (stable
tie-break).  Stated for an arbitrary similarity function, which subsumes
the cosine similarity the code computes. -/
theorem c5_ranking_top8_stable (sim : List ℚ → List ℚ → ℚ) (qv : List ℚ)
    (chunks : List DocChunk) :
    (rankTop sim qv chunks).length = min 8 chunks.length
    ∧ (rankTop sim qv chunks).Pairwise (fun a b => b.score ≤ a.score)
    ∧ ∀ s : ℚ, ∃ rest,
        (scoreChunks sim qv chunks).filter (fun c => decide (c.score = s)) =
          (rankTop sim qv chunks).filter (fun c => decide (c.score = s)) ++ rest := by
  refine ⟨?_, ?_, ?_⟩
  · rw [rankTop, List.length_take, (sortDesc_perm _).length_eq, scoreChunks, List.length_map]
  · exact List.Pairwise.sublist (List.take_sublist 8 _) (sortDesc_sorted _)
  · intro s
    refine ⟨((sortDesc (scoreChunks sim qv chunks)).drop 8).filter
      (fun c => decide (c.score = s)), ?_⟩
    rw [rankTop, ← List.filter_append, List.take_append_drop, sortDesc_filter]

/-! Helper lemmas for the strategy selector. -/

/-- Lemma: `startsWithSeq` decides the existence of a suffix completion. -/
theorem startsWithSeq_iff (n : Str) : ∀ h : Str,
    startsWithSeq n h = true ↔ ∃ r, h = n ++ r := by
  induction n with
  | nil => intro h; simp [startsWithSeq]
  | cons a as ih =>
    intro h
    cases h with
    | nil => simp [startsWithSeq]
    | cons b bs =>
      rw [startsWithSeq]
      rw [Bool.and_eq_true, beq_iff_eq]
      constructor
      · rintro ⟨rfl, hs⟩
        obtain ⟨r, rfl⟩ := (ih bs).mp hs
        exact ⟨r, rfl⟩
      · rintro ⟨r, hr⟩
        rw [List.cons_append] at hr
        injection hr with h1 h2
        exact ⟨h1.symm, (ih bs).mpr ⟨r, h2⟩⟩

/-- Lemma: `containsSeq` decides substring containment. -/
theorem containsSeq_iff (n : Str) : ∀ h : Str,
    containsSeq n h = true ↔ ∃ l r, h = l ++ n ++ r := by
  intro h
  induction h with
  | nil =>
    rw [containsSeq]
    rw [List.isEmpty_iff]
    constructor
    · rintro rfl; exact ⟨[], [], rfl⟩
    · rintro ⟨l, r, hr⟩
      rcases List.append_eq_nil.mp (List.append_eq_nil.mp hr.symm).1 with ⟨_, h2⟩
      exact h2
  | cons hd tl ih =>
    rw [containsSeq, Bool.or_eq_true]
    constructor
    · rintro (hs | hc)
      · obtain ⟨r, hr⟩ := (startsWithSeq_iff n _).mp hs
        exact ⟨[], r, by simpa using hr⟩
      · obtain ⟨l, r, hr⟩ := ih.mp hc
        exact ⟨hd :: l, r, by simp [hr]⟩
    · rintro ⟨l, r, hr⟩
      cases l with
      | nil =>
        left
        exact (startsWithSeq_iff n _).mpr ⟨r, by simpa using hr⟩
      | cons x xs =>
        right
        rw [List.cons_append, List.cons_append] at hr
        injection hr with h1 h2
        exact ih.mpr ⟨xs, r, by simpa using h2⟩

/-- C6: strategy selection is a pure total function of the question text;
it selects the summary strategy exactly when the lowercased question
contains one of the five keywords as a substring (not whole-word), and in
particular both "Summarize this" and "SUMMARIZE THIS" select it. -/
theorem c6_strategy_selection :
    (∀ q : Str, isSummaryRequest q = true ↔
      ∃ k ∈ summaryKeywords, ∃ l r, lowerChars q = l ++ lowerChars k ++ r)
    ∧ isSummaryRequest ("Summarize this".data) = true
    ∧ isSummaryRequest ("SUMMARIZE THIS".data) = true := by
  refine ⟨fun q => ?_, by decide, by decide⟩
  rw [isSummaryRequest, List.any_eq_true]
  constructor
  · rintro ⟨k, hk, hc⟩
    obtain ⟨l, r, hr⟩ := (containsSeq_iff _ _).mp hc
    exact ⟨k, hk, l, r, hr⟩
  · rintro ⟨k, hk, l, r, hr⟩
    exact ⟨k, hk, (containsSeq_iff _ _).mpr ⟨l, r, hr⟩⟩

/-! Helper lemmas for the page-number sort and deduplication. -/

/-- Ascending insertion is a permutation with consing. -/
theorem insertAsc_perm (x : Nat) (l : List Nat) : (insertAsc x l).Perm (x :: l) := by
  induction l with
  | nil => exact List.Perm.refl _
  | cons y ys ih =>
    by_cases hxy : y < x
    · rw [insertAsc, if_pos hxy]
      exact (ih.cons y).trans (List.Perm.swap x y ys)
    · rw [insertAsc, if_neg hxy]

/-- The ascending sort is a permutation. -/
theorem sortAsc_perm (l : List Nat) : (sortAsc l).Perm l := by
  induction l with
  | nil => exact List.Perm.refl _
  | cons x xs ih => exact (insertAsc_perm x (sortAsc xs)).trans (ih.cons x)

/-- Ascending insertion preserves the non-decreasing order. -/
theorem insertAsc_sorted (x : Nat) (l : List Nat) (hl : l.Pairwise (· ≤ ·)) :
    (insertAsc x l).Pairwise (· ≤ ·) := by
  induction l with
  | nil => simp [insertAsc]
  | cons y ys ih =>
    rcases List.pairwise_cons.mp hl with ⟨hy, hys⟩
    by_cases hxy : y < x
    · rw [insertAsc, if_pos hxy]
      refine List.pairwise_cons.mpr ⟨?_, ih hys⟩
      intro z hz
      rcases List.mem_cons.mp ((insertAsc_perm x ys).mem_iff.mp hz) with rfl | hz'
      · exact le_of_lt hxy
      · exact hy z hz'
    · rw [insertAsc, if_neg hxy]
      refine List.pairwise_cons.mpr ⟨?_, hl⟩
      intro z hz
      rcases List.mem_cons.mp hz with rfl | hz'
      · exact le_of_not_lt hxy
      · exact (le_of_not_lt hxy).trans (hy z hz')

/-- The ascending sort output is non-decreasing. -/
theorem sortAsc_sorted (l : List Nat) : (sortAsc l).Pairwise (· ≤ ·) := by
  induction l with
  | nil => simp [sortAsc]
  | cons x xs ih => exact insertAsc_sorted x _ ih

/-- Membership in the deduplication worker. -/
theorem dedupFirstAux_mem (x : Nat) : ∀ (l seen : List Nat),
    x ∈ dedupFirstAux seen l ↔ x ∈ l ∧ x ∉ seen := by
  intro l
  induction l with
  | nil => intro seen; simp [dedupFirstAux]
  | cons y ys ih =>
    intro seen
    by_cases hy : y ∈ seen
    · rw [dedupFirstAux, if_pos hy, ih]
      constructor
      · rintro ⟨h1, h2⟩; exact ⟨List.mem_cons_of_mem _ h1, h2⟩
      · rintro ⟨h1, h2⟩
        rcases List.mem_cons.mp h1 with rfl | h1'
        · exact absurd hy h2
        · exact ⟨h1', h2⟩
    · rw [dedupFirstAux, if_neg hy]
      constructor
      · intro hmem
        rcases List.mem_cons.mp hmem with rfl | h1'
        · exact ⟨List.mem_cons_self _ _, hy⟩
        · rcases (ih (y :: seen)).mp h1' with ⟨h2, h3⟩
          exact ⟨List.mem_cons_of_mem _ h2, fun hcon => h3 (List.mem_cons_of_mem _ hcon)⟩
      · rintro ⟨h1, h2⟩
        rcases List.mem_cons.mp h1 with rfl | h1'
        · exact List.mem_cons_self _ _
        · by_cases hxy : x = y
          · subst hxy; exact List.mem_cons_self _ _
          · exact List.mem_cons_of_mem _
              ((ih (y :: seen)).mpr ⟨h1', by simp [hxy, h2]⟩)

/-- The deduplication worker returns a list without duplicates. -/
theorem dedupFirstAux_nodup : ∀ (l seen : List Nat), (dedupFirstAux seen l).Nodup := by
  intro l
  induction l with
  | nil => intro seen; simp [dedupFirstAux]
  | cons y ys ih =>
    intro seen
    by_cases hy : y ∈ seen
    · rw [dedupFirstAux, if_pos hy]; exact ih seen
    · rw [dedupFirstAux, if_neg hy]
      refine List.nodup_cons.mpr ⟨?_, ih _⟩
      intro hmem
      exact ((dedupFirstAux_mem y ys (y :: seen)).mp hmem).2 (List.mem_cons_self y seen)

/-- A non-empty list stays non-empty after deduplication. -/
theorem dedupFirst_ne_nil (l : List Nat) (h : l ≠ []) : dedupFirst l ≠ [] := by
  obtain ⟨x, xs, rfl⟩ := List.exists_cons_of_ne_nil h
  simp [dedupFirst, dedupFirstAux]

/-! Helper lemmas for the embedding batches and the answer generator. -/

/-- The batch loop embeds every chunk independently: one failed call
affects neither its batch siblings nor later batches. -/
theorem embedAll_eq_map (embed : DocChunk → Option (List ℚ)) :
    ∀ l : List DocChunk, embedAll embed l = l.map fun c => { c with embedding := embed c }
  | [] => rfl
  | [c1] => rfl
  | [c1, c2] => rfl
  | [c1, c2, c3] => rfl
  | [c1, c2, c3, c4] => rfl
  | c1 :: c2 :: c3 :: c4 :: c5 :: rest => by
    simp only [embedAll, List.map]
    simp [embedAll_eq_map embed rest]

/-- The retained and discarded parts of a filter partition the length. -/
theorem length_filter_split (l : List DocChunk) (p : DocChunk → Bool) :
    (l.filter p).length + (l.filter fun a => !(p a)).length = l.length := by
  induction l with
  | nil => rfl
  | cons a l ih => cases hpa : p a <;> simp [List.filter_cons, hpa] <;> omega

/-- The summary branch of `generateAnswer`, unfolded. -/
theorem generateAnswer_summary (env : GenEnv) (q : Str) (doc : ProcessedDocument)
    (hS : isSummaryRequest q = true) :
    generateAnswer env q doc =
      { fragments := getCompletionStream (env.rawStream (summaryPromptOf doc q)) ++
          [summarySourceMarker]
        effects := [GenEffect.streamCall (summaryPromptOf doc q)]
        failed := false } := by
  simp [generateAnswer, hS]

/-- The retrieval branch of `generateAnswer`, unfolded. -/
theorem generateAnswer_rag (env : GenEnv) (q : Str) (doc : ProcessedDocument)
    (qv : List ℚ) (hS : isSummaryRequest q = false) (hq : env.embedQ q = some qv) :
    generateAnswer env q doc =
      { fragments := getCompletionStream (env.rawStream (ragPromptOf env.sim qv doc.chunks q))
          ++ (if 0 < (uniquePagesOf (rankTop env.sim qv doc.chunks)).length
              then [citation (uniquePagesOf (rankTop env.sim qv doc.chunks))] else [])
        effects := [GenEffect.embedCall q, GenEffect.rankCall,
          GenEffect.streamCall (ragPromptOf env.sim qv doc.chunks q)]
        failed := false } := by
  simp [generateAnswer, hS, hq]

/-- C4: a per-chunk embedding failure is non-fatal.  The embedding phase
maps every chunk independently (so two failures leave the other chunks
of their batches and of later batches embedded), the final filter drops
exactly the chunks whose embedding stayed unset, and `processPdf`
returns normally: with 7 chunks of which exactly 2 fail, the resulting
document holds exactly the 5 embedded chunks. -/
theorem c4_embed_failures_nonfatal (embed : DocChunk → Option (List ℚ))
    (pages : List PageText) (chunks : List DocChunk)
    (hc : chunkText 4000 500 pages = some chunks)
    (h7 : chunks.length = 7)
    (h2 : (chunks.filter fun c => (embed c).isNone).length = 2) :
    processPdf embed pages = some
      { chunks := (chunks.map fun c => { c with embedding := embed c }).filter
          fun c => c.embedding.isSome
        fullText := List.intercalate ("\n\n".data) (pages.map fun p => p.text) }
    ∧ ((chunks.map fun c => { c with embedding := embed c }).filter
        fun c => c.embedding.isSome).length = 5 := by
  constructor
  · simp [processPdf, hc, embedAll_eq_map]
  · rw [List.filter_map]
    rw [show ((fun c : DocChunk => c.embedding.isSome) ∘
        fun c : DocChunk => { c with embedding := embed c }) =
        fun c : DocChunk => (embed c).isSome from rfl]
    rw [List.length_map]
    have hsplit := length_filter_split chunks fun c => (embed c).isSome
    have hnone : (chunks.filter fun a => !((embed a).isSome)) =
        chunks.filter fun c => (embed c).isNone := by
      congr 1
      funext a
      cases embed a <;> rfl
    rw [hnone, h2, h7] at hsplit
    omega

/-- Witness: C4 applied to seven one-chunk pages with the oracle failing
on the chunks of pages 1 and 2. -/
theorem c4_witness :
    ((chunksW4.map fun c => { c with embedding := embedW4 c }).filter
      fun c => c.embedding.isSome).length = 5 :=
  (c4_embed_failures_nonfatal embedW4 pagesW4 chunksW4 (by decide) (by decide) (by decide)).2

/-- C7: on the summary path the only external call is one generation
stream over the summary prompt (no question embedding, no ranking), the
yielded fragments are the stream's non-empty fragments in order followed
by exactly one final source-marker fragment, and the prompt text is the
whole `fullText` when it is within the 3,000,000-character budget and
the truncated text plus the truncation marker when it exceeds it. -/
theorem c7_summary_path (env : GenEnv) (q : Str) (doc : ProcessedDocument)
    (hS : isSummaryRequest q = true) :
    (generateAnswer env q doc).effects = [GenEffect.streamCall (summaryPromptOf doc q)]
    ∧ (∀ qe, GenEffect.embedCall qe ∉ (generateAnswer env q doc).effects)
    ∧ GenEffect.rankCall ∉ (generateAnswer env q doc).effects
    ∧ (generateAnswer env q doc).fragments =
        getCompletionStream (env.rawStream (summaryPromptOf doc q)) ++ [summarySourceMarker]
    ∧ (doc.fullText.length ≤ 3000000 → sumTextToSend doc.fullText = doc.fullText)
    ∧ (3000000 < doc.fullText.length →
        sumTextToSend doc.fullText = doc.fullText.take 3000000 ++ ("...[truncated]".data))
    ∧ ((env.rawStream (summaryPromptOf doc q)).errored = false →
        (∀ f ∈ (env.rawStream (summaryPromptOf doc q)).frags, f ≠ []) →
        (generateAnswer env q doc).fragments =
          (env.rawStream (summaryPromptOf doc q)).frags ++ [summarySourceMarker]) := by
  have hg := generateAnswer_summary env q doc hS
  refine ⟨by rw [hg], ?_, ?_, by rw [hg], ?_, ?_, ?_⟩
  · intro qe; rw [hg]; simp
  · rw [hg]; simp
  · intro hle; rw [sumTextToSend, if_neg (by omega)]
  · intro hgt; rw [sumTextToSend, if_pos hgt]
  · intro herr hall
    rw [hg]
    have hfilter : ((env.rawStream (summaryPromptOf doc q)).frags.filter
        fun s => !s.isEmpty) = (env.rawStream (summaryPromptOf doc q)).frags := by
      apply List.filter_eq_self.mpr
      intro a ha
      simpa [List.isEmpty_iff] using hall a ha
    simp [getCompletionStream, herr, hfilter]

/-- Witness: C7 applied to a concrete overview question. -/
theorem c7_witness :
    (generateAnswer envW7 ("overview please".data) docW7).effects =
      [GenEffect.streamCall (summaryPromptOf docW7 ("overview please".data))] :=
  (c7_summary_path envW7 ("overview please".data) docW7 (by decide)).1

/-- C8: on the retrieval path, after the stream the generator emits
exactly one final fragment citing the page numbers of the retrieved top
chunks: the cited list is strictly increasing (sorted, without
duplicates), contains exactly the pages of the top chunks, and the
citation reads "Pages ..." when more than one page is cited and
"Page ..." when exactly one is. -/
theorem c8_retrieval_citation (env : GenEnv) (q : Str) (doc : ProcessedDocument)
    (qv : List ℚ) (hS : isSummaryRequest q = false) (hq : env.embedQ q = some qv)
    (hne : doc.chunks ≠ []) :
    (generateAnswer env q doc).fragments =
      getCompletionStream (env.rawStream (ragPromptOf env.sim qv doc.chunks q))
        ++ [citation (uniquePagesOf (rankTop env.sim qv doc.chunks))]
    ∧ (uniquePagesOf (rankTop env.sim qv doc.chunks)).Pairwise (· < ·)
    ∧ (∀ x, x ∈ uniquePagesOf (rankTop env.sim qv doc.chunks) ↔
        x ∈ (rankTop env.sim qv doc.chunks).map fun s => s.chunk.pageNumber)
    ∧ (1 < (uniquePagesOf (rankTop env.sim qv doc.chunks)).length →
        citation (uniquePagesOf (rankTop env.sim qv doc.chunks)) =
          ("\n\n**Sources:** Pages ".data) ++ List.intercalate (", ".data)
            ((uniquePagesOf (rankTop env.sim qv doc.chunks)).map fun n => (toString n).data))
    ∧ ((uniquePagesOf (rankTop env.sim qv doc.chunks)).length = 1 →
        citation (uniquePagesOf (rankTop env.sim qv doc.chunks)) =
          ("\n\n**Sources:** Page ".data) ++ List.intercalate (", ".data)
            ((uniquePagesOf (rankTop env.sim qv doc.chunks)).map fun n => (toString n).data)) := by
  have htop : (rankTop env.sim qv doc.chunks) ≠ [] := by
    apply List.ne_nil_of_length_pos
    rw [rankTop, List.length_take, (sortDesc_perm _).length_eq, scoreChunks, List.length_map]
    have := List.length_pos.mpr hne
    omega
  have hup : 0 < (uniquePagesOf (rankTop env.sim qv doc.chunks)).length := by
    rw [uniquePagesOf, (sortAsc_perm _).length_eq]
    apply List.length_pos.mpr
    apply dedupFirst_ne_nil
    simpa using htop
  refine ⟨?_, ?_, ?_, ?_, ?_⟩
  · rw [generateAnswer_rag env q doc qv hS hq]
    simp [if_pos hup]
  · have hsorted := sortAsc_sorted
      (dedupFirst ((rankTop env.sim qv doc.chunks).map fun s => s.chunk.pageNumber))
    have hnodup : (sortAsc (dedupFirst
        ((rankTop env.sim qv doc.chunks).map fun s => s.chunk.pageNumber))).Pairwise
        (· ≠ ·) :=
      (sortAsc_perm _).symm.nodup (dedupFirstAux_nodup _ _)
    rw [uniquePagesOf]
    exact (hsorted.and hnodup).imp fun hab => lt_of_le_of_ne hab.1 hab.2
  · intro x
    rw [uniquePagesOf, (sortAsc_perm _).mem_iff, dedupFirst, dedupFirstAux_mem]
    simp
  · intro hlen
    rw [citation, if_pos hlen]
    congr 1
  · intro hlen
    rw [citation, if_neg (by omega)]
    congr 1

/-- Witness: C8 on end-to-end scenario 3 - ten embedded chunks spanning
pages `[1,1,2,3,3,4,4,5,5,6]` whose top 8 span pages `{1,3,4,5,6}`; the
final fragment reads exactly "Pages 1, 3, 4, 5, 6". -/
theorem c8_witness :
    (generateAnswer envW8 ("What is the termination clause?".data) docW8).fragments.getLast?
      = some ("\n\n**Sources:** Pages 1, 3, 4, 5, 6".data) := by
  have h := (c8_retrieval_citation envW8 ("What is the termination clause?".data) docW8 [1]
    (by decide) rfl (by decide)).1
  rw [h, List.getLast?_concat]
  decide

/-- C9: when the generation capability throws mid-stream, on any answer
turn, the stream still yields the in-band error fragment after the
fragments produced so far (it never ends silently), no exception escapes
the generator, and the transcript keeps the partial answer unmodified,
directly followed by the visible error message.  The first conjunct is
path-independent; the other two instantiate it on the summary turn
(where the source marker follows the error fragment) and on the
retrieval turn with a successfully embedded question (where the citation
footer, if any pages are cited, follows the error fragment). -/
theorem c9_midstream_failure (env : GenEnv) (q : Str) (doc : ProcessedDocument)
    (msgs : List Message) :
    (∀ raw : RawStream, raw.errored = true →
      getCompletionStream raw = (raw.frags.filter fun s => !s.isEmpty) ++ [streamErrMsg])
    ∧ (isSummaryRequest q = true →
        (env.rawStream (summaryPromptOf doc q)).errored = true →
        (generateAnswer env q doc).failed = false
        ∧ handleSendMessage env doc msgs q =
            msgs ++ [⟨Role.user, q⟩,
              ⟨Role.assistant,
                ((env.rawStream (summaryPromptOf doc q)).frags.filter
                  fun s => !s.isEmpty).flatten ++ streamErrMsg ++ summarySourceMarker⟩])
    ∧ ∀ qv : List ℚ, isSummaryRequest q = false → env.embedQ q = some qv →
        (env.rawStream (ragPromptOf env.sim qv doc.chunks q)).errored = true →
        (generateAnswer env q doc).failed = false
        ∧ handleSendMessage env doc msgs q =
            msgs ++ [⟨Role.user, q⟩,
              ⟨Role.assistant,
                ((env.rawStream (ragPromptOf env.sim qv doc.chunks q)).frags.filter
                  fun s => !s.isEmpty).flatten ++ streamErrMsg ++
                  (if 0 < (uniquePagesOf (rankTop env.sim qv doc.chunks)).length
                   then citation (uniquePagesOf (rankTop env.sim qv doc.chunks))
                   else [])⟩] := by
  refine ⟨fun raw herr => by simp [getCompletionStream, herr], ?_, ?_⟩
  · intro hS herr
    have hg := generateAnswer_summary env q doc hS
    refine ⟨by rw [hg], ?_⟩
    rw [handleSendMessage]
    rw [hg]
    simp [getCompletionStream, herr, List.flatten_append, List.append_assoc]
  · intro qv hS hq herr
    have hg := generateAnswer_rag env q doc qv hS hq
    refine ⟨by rw [hg], ?_⟩
    rw [handleSendMessage]
    rw [hg]
    by_cases hup : 0 < (uniquePagesOf (rankTop env.sim qv doc.chunks)).length
    · simp [getCompletionStream, herr, hup, List.flatten_append, List.append_assoc]
    · simp [getCompletionStream, herr, hup, List.flatten_append, List.append_assoc]

/-- Witness: C9 on end-to-end scenario 4, on both strategies - the
stream throws after yielding "Partial answer "; on the summary turn and
on the retrieval turn alike the transcript shows the partial answer
unmodified, followed by the visible error fragment (and then the
path's footer). -/
theorem c9_witness :
    (handleSendMessage envW9 docW9 [] ("tl;dr".data) =
      [⟨Role.user, "tl;dr".data⟩,
       ⟨Role.assistant, ("Partial answer ".data) ++ streamErrMsg ++ summarySourceMarker⟩])
    ∧ handleSendMessage envW9r docW9r [] ("What is clause 7?".data) =
      [⟨Role.user, "What is clause 7?".data⟩,
       ⟨Role.assistant, ("Partial answer ".data) ++ streamErrMsg ++
         ("\n\n**Sources:** Page 2".data)⟩] := by
  constructor
  · rw [((c9_midstream_failure envW9 ("tl;dr".data) docW9 []).2.1 (by decide) rfl).2]
    decide
  · rw [((c9_midstream_failure envW9r ("What is clause 7?".data) docW9r []).2.2 [1]
      (by decide) rfl rfl).2]
    decide

/-- C10: the embedding phase never touches `fullText` - for every
embedding oracle the processed document's `fullText` is the extracted
page texts joined in page order by a blank line; even when every chunk
fails embedding (so `chunks` is empty), the summary path still builds its
prompt from the complete document text. -/
theorem c10_fulltext_preserved (embed : DocChunk → Option (List ℚ))
    (pages : List PageText) (doc : ProcessedDocument)
    (h : processPdf embed pages = some doc) :
    doc.fullText = List.intercalate ("\n\n".data) (pages.map fun p => p.text)
    ∧ ((∀ c, embed c = none) → doc.chunks = [])
    ∧ ∀ env q, isSummaryRequest q = true →
        (generateAnswer env q doc).effects = [GenEffect.streamCall (summaryPromptOf doc q)]
        ∧ summaryPromptOf doc q =
            sumPre ++ sumTextToSend doc.fullText ++ sumMid ++ q ++ sumPost := by
  cases hc : chunkText 4000 500 pages with
  | none => rw [processPdf, hc] at h; exact absurd h (by simp)
  | some chunks =>
    rw [processPdf, hc] at h
    injection h with h
    subst h
    refine ⟨rfl, ?_, ?_⟩
    · intro hall
      simp only [embedAll_eq_map]
      rw [List.filter_map, List.map_eq_nil_iff]
      rw [List.filter_eq_nil_iff]
      intro a _
      simp [Function.comp, hall a]
    · intro env q hq
      exact ⟨by rw [generateAnswer_summary env q _ hq], rfl⟩

/-- Witness: C10 with every embedding failing on a two-page document. -/
theorem c10_witness :
    docW10.fullText = ("ab\n\ncd".data) ∧ docW10.chunks = [] := by
  have h := c10_fulltext_preserved embedW10 pagesW10 docW10 (by decide)
  exact ⟨by rw [h.1]; decide, h.2.1 fun _ => rfl⟩
